import Mathlib

/-
Verification of the Hyperbacked secret-backup program.

The repository's interactive surface is `src/gui.rs`; the backup engine it calls
(`backup.rs`, `crypto.rs`, `passphrase.rs`, `printer.rs`) is not part of the sources,
so the engine below is modelled from the specification (threshold secret sharing over a
finite field, passphrase-derived authenticated encryption, and the orchestrator's two
entry points), while the UI state machine is a direct embedding of `gui.rs`.
The splitting field with 256 elements is abstracted as an arbitrary field `F`; the
embedding of share numbers as distinct non-zero field points is a component of the
modelled cryptographic environment.
-/

/-- Modelled from the spec: error kinds of the backup engine (spec §7);
`backup.rs`/`crypto.rs` are not in src/. -/
inductive BackupError
  | InvalidConfig
  | EmptyInput
  | InsufficientShares
  | InconsistentShares
  | AuthenticationFailure
  | EncodingFailure
  deriving DecidableEq

/-- Modelled from the spec: `crypto::Secret` (crypto.rs is not in src/): one value to
protect together with its passphrase; the value's bytes are modelled as elements of the
splitting field `F` (spec §3, §4.3). The field is named `password` as in the
`crypto::Secret` literal built by gui.rs. -/
structure Secret (F : Type) where
  value : List F
  password : String

/-- Threshold scheme parameters (spec §3): `backup::BackupConfig` as constructed by
gui.rs lines 139-142 (both components are `u8` in the source, modelled as `Nat`). -/
structure BackupConfig where
  required_shares : Nat
  num_shares : Nat
  deriving DecidableEq

/-- Modelled from the spec: one distributable fragment (spec §3): its `number`, the scheme
parameters recorded redundantly in every share so any subset is self-describing, and the
per-secret share data (one coordinate list per bundled secret, spec §9). -/
structure BackupShare (F : Type) where
  number : Nat
  required_shares : Nat
  num_shares : Nat
  data : List (List F)
  deriving DecidableEq

/-- Modelled from the spec: the cryptographic collaborators of the engine — the
key-derivation function (§4.1), the cipher keystream and authentication tag (§4.2), the
fresh randomness for salts, nonces and polynomial coefficients (§5: `coeff i p j` is the
`j`-th random coefficient for byte position `p` of secret `i`), and the embedding
`xcoord` of share numbers as field points (§4.3: distinct non-zero x-coordinates). -/
structure CryptoEnv (F : Type) where
  kdf : String → List F → List F
  ks : List F → List F → Nat → F
  mac : List F → List F → List F → List F
  salt : Nat → List F
  nonce : Nat → List F
  coeff : Nat → Nat → Nat → F
  xcoord : Nat → F

/-- Byte length of a salt in the packed payload. -/
def saltLen : Nat := 16

/-- Byte length of a nonce in the packed payload. -/
def nonceLen : Nat := 12

/-- Byte length of an authentication tag in the packed payload. -/
def tagLen : Nat := 16

section Engine

variable {F : Type} [Field F] [DecidableEq F]

/-- Horner evaluation of the polynomial with coefficient list `l` (constant term first)
at the point `x`. -/
def hornerEval (l : List F) (x : F) : F :=
  l.foldr (fun a acc => a + x * acc) 0

/-- Modelled from the spec (§4.3): the byte-wise polynomial share of a payload `P` at the
field point `x`: for each byte position `p`, a polynomial whose constant term is the
payload byte `P p` and whose `m` random higher coefficients are `c p`, evaluated at `x`. -/
def shareView {L m : Nat} (P : Fin L → F) (c : Fin L → Fin m → F) (x : F) : Fin L → F :=
  fun p => hornerEval (P p :: List.ofFn (c p)) x

/-- Modelled from the spec (§4.1, §4.2, §4.5): derive a key from the secret's passphrase
and the fresh salt for secret `i`, encrypt the value with the keystream cipher,
authenticate the ciphertext, and pack `salt ++ nonce ++ ciphertext ++ tag`. -/
def encryptPayload (env : CryptoEnv F) (i : Nat) (s : Secret F) : List F :=
  let salt := env.salt i
  let nonce := env.nonce i
  let key := env.kdf s.password salt
  let ct := List.ofFn (fun j : Fin s.value.length => s.value.get j + env.ks key nonce j)
  salt ++ nonce ++ ct ++ env.mac key nonce ct

/-- Modelled from the spec (§4.5): the data of one share at field point `x` bundles, for
every secret in the batch, the polynomial share of that secret's encrypted payload
(`required_shares - 1` random coefficients per byte position). -/
def shareData (env : CryptoEnv F) (secrets : List (Secret F)) (cfg : BackupConfig)
    (x : F) : List (List F) :=
  List.ofFn (fun s : Fin secrets.length =>
    let P := encryptPayload env s.1 (secrets.get s)
    List.ofFn (shareView (fun p : Fin P.length => P.get p)
      (fun (p : Fin P.length) (j : Fin (cfg.required_shares - 1)) => env.coeff s.1 p.1 j.1)
      x))

/-- The share with number `k + 1` produced by `create_backup` (spec §4.5, §3). -/
def createdShare (env : CryptoEnv F) (secrets : List (Secret F)) (cfg : BackupConfig)
    (k : Nat) : BackupShare F :=
  { number := k + 1
    required_shares := cfg.required_shares
    num_shares := cfg.num_shares
    data := shareData env secrets cfg (env.xcoord (k + 1)) }

/-- Modelled from the spec (§4.5, §7, §8): `create_backup`: validate the config first
(lower bound 1 by the config-validation property of §8, upper bound 255 points of the
field), reject empty inputs, and produce `num_shares` shares evaluated at the points
`xcoord 1 .. xcoord num_shares`. -/
def create_backup (env : CryptoEnv F) (secrets : List (Secret F)) (cfg : BackupConfig) :
    Except BackupError (List (BackupShare F)) :=
  if 1 ≤ cfg.required_shares ∧ cfg.required_shares ≤ cfg.num_shares ∧
      cfg.num_shares ≤ 255 then
    if secrets.any (fun s => s.value.isEmpty || s.password.isEmpty) then
      .error .EmptyInput
    else
      .ok (List.ofFn (fun k : Fin cfg.num_shares => createdShare env secrets cfg k.1))
  else .error .InvalidConfig

/-- Modelled from the spec (§4.4): Lagrange interpolation at `x = 0` of the points
`(x i, y i)`, recovering the constant term of the split polynomial. -/
def lagrange0 {k : Nat} (x y : Fin k → F) : F :=
  ∑ i, y i * ∏ j ∈ Finset.univ.erase i, x j / (x j - x i)

/-- Modelled from the spec (§4.4): the supplied shares must agree on the scheme
parameters and payload lengths and carry distinct, in-range numbers. -/
def sharesConsistent (shares : List (BackupShare F)) : Bool :=
  match shares with
  | [] => true
  | sh0 :: _ =>
    shares.all (fun sh =>
      sh.required_shares == sh0.required_shares && sh.num_shares == sh0.num_shares &&
      sh.data.length == sh0.data.length &&
      (List.range sh0.data.length).all (fun s =>
        (sh.data.getD s []).length == (sh0.data.getD s []).length)) &&
    shares.all (fun sh => decide (1 ≤ sh.number) && decide (sh.number ≤ sh0.num_shares)) &&
    decide ((shares.map (fun sh => sh.number)).Nodup)

/-- Modelled from the spec (§4.4): recombine byte position `p` of bundled secret `s` from
all supplied shares by interpolation at 0, using each share's number (through `xcoord`)
as its field point. -/
def combineSecret (env : CryptoEnv F) (shares : List (BackupShare F)) (s plen : Nat) :
    List F :=
  List.ofFn (fun p : Fin plen =>
    lagrange0 (fun i : Fin shares.length => env.xcoord ((shares.get i).number))
      (fun i : Fin shares.length => ((shares.get i).data.getD s []).getD p.1 0))

/-- Modelled from the spec (§4.2, §4.5): unpack `salt ++ nonce ++ ciphertext ++ tag`,
re-derive the key from the supplied passphrase, verify the authentication tag
(all-or-nothing), and decrypt the ciphertext. -/
def decryptSecret (env : CryptoEnv F) (passphrase : String) (payload : List F) :
    Option (List F) :=
  let salt := payload.take saltLen
  let rest := payload.drop saltLen
  let nonce := rest.take nonceLen
  let body := rest.drop nonceLen
  let ct := body.take (body.length - tagLen)
  let tag := body.drop (body.length - tagLen)
  let key := env.kdf passphrase salt
  if env.mac key nonce ct = tag then
    some (List.ofFn (fun j : Fin ct.length => ct.get j - env.ks key nonce j.1))
  else Option.none

/-- Modelled from the spec (§4.4, §4.5, §7): `restore_backup`: validate share consistency
and sufficiency, then per bundled secret recombine the payload by Lagrange interpolation
at 0 and decrypt it with the passphrase supplied at restoration time; decryption failure
of any bundled secret is an authentication failure, never a silent wrong answer. -/
def restore_backup (env : CryptoEnv F) (shares : List (BackupShare F))
    (passphrase : String) : Except BackupError (List (List F)) :=
  match shares with
  | [] => .error .InsufficientShares
  | sh0 :: _ =>
    if sharesConsistent shares then
      if sh0.required_shares ≤ shares.length then
        let recovered := (List.range sh0.data.length).map (fun s =>
          decryptSecret env passphrase
            (combineSecret env shares s ((sh0.data.getD s []).length)))
        if recovered.all (fun o => o.isSome) then
          .ok (recovered.map (fun o => o.getD []))
        else .error .AuthenticationFailure
      else .error .InsufficientShares
    else .error .InconsistentShares

end Engine

/-- The config invariant exactly as the spec's data-model table states it (§3):
`2 ≤ required_shares ≤ num_shares ≤ 255`. -/
def specConfigInvariant (c : BackupConfig) : Prop :=
  2 ≤ c.required_shares ∧ c.required_shares ≤ c.num_shares ∧ c.num_shares ≤ 255

instance (c : BackupConfig) : Decidable (specConfigInvariant c) := by
  unfold specConfigInvariant; infer_instance

/-- The pages of the interactive surface (gui.rs lines 32-39). -/
inductive AppPage
  | Welcome
  | CreateBackup
  | RestoreBackup
  | BackupGenerating
  | BackupResults
  deriving DecidableEq

/-- The selectable backup modes (gui.rs lines 55-59; `min`/`max` are `u8` in the source,
modelled as `Nat`). -/
inductive BackupType
  | Standard
  | Distributed (mn mx : Nat)
  deriving DecidableEq

/-- gui.rs lines 376-383: the four entries of the backup-mode pick list. -/
def BackupType.ALL : List BackupType :=
  [.Standard, .Distributed 2 3, .Distributed 3 5, .Distributed 4 7]

/-- gui.rs lines 127-135: the scheme parameters derived from the selected backup mode. -/
def configFor : BackupType → BackupConfig
  | .Standard => { required_shares := 1, num_shares := 1 }
  | .Distributed mn mx => { required_shares := mn, num_shares := mx }

/-- The argument element the UI passes to `create_backup` (gui.rs lines 122-125): one
value/passphrase pair, both strings. -/
structure GuiSecret where
  value : String
  password : String
  deriving DecidableEq

/-- The messages of the UI state machine (gui.rs lines 41-53). -/
inductive Message (F : Type)
  | SwitchPage (page : AppPage)
  | SecretChanged (s : String)
  | PassphraseChanged (p : String)
  | GenerateSecret
  | CreateBackup
  | LabelChanged (l : String)
  | BackupTypeChanged (t : BackupType)
  | BackupCompleted (r : Option (List (BackupShare F)))
  | SaveBackup (n : Nat)
  | End

/-- The effect requested by one `update` step: nothing, or the background `create_backup`
invocation spawned by `Message::CreateBackup` (gui.rs lines 120-147), recording the
secrets batch and the config passed to it. -/
inductive Cmd
  | none
  | performCreate (secrets : List GuiSecret) (cfg : BackupConfig)
  deriving DecidableEq

/-- Modelled from the spec: the effectful collaborators consulted during one `update`
step: whether the save-file dialog returned a file, whether `print_pdf` and
`render_to_file` succeed (printer.rs is not in src/), and the string produced by
`gen_passphrase 6` (passphrase.rs is not in src/; spec §1 assumes it produces a random
string). -/
structure UpdateEnv where
  fileChosen : Bool
  pdfOk : Bool
  genPassphrase : String

/-- The application state (gui.rs lines 22-30). -/
structure HyperbackedApp (F : Type) where
  page : AppPage
  secret : String
  passphrase : String
  label : String
  backup_type : BackupType
  generated_backup : Option (List (BackupShare F))
  should_exit : Bool

/-- gui.rs lines 61-73: the initial state. -/
def HyperbackedApp.default {F : Type} : HyperbackedApp F :=
  { page := .Welcome
    secret := ""
    passphrase := ""
    label := ""
    backup_type := .Standard
    generated_backup := Option.none
    should_exit := false }

/-- gui.rs lines 99-178: one step of the UI state machine. `Option.none` models a panic
in the `SaveBackup` branch (`unwrap`/`expect` on the missing backup, the missing share
number, or PDF generation/rendering); every other branch is total. -/
def update {F : Type} (app : HyperbackedApp F) (m : Message F) (env : UpdateEnv) :
    Option (HyperbackedApp F × Cmd) :=
  match m with
  | .SwitchPage page => some ({ app with page := page }, .none)
  | .SecretChanged s => some ({ app with secret := s }, .none)
  | .PassphraseChanged p => some ({ app with passphrase := p }, .none)
  | .GenerateSecret => some ({ app with passphrase := env.genPassphrase }, .none)
  | .CreateBackup =>
      some ({ app with page := .BackupGenerating },
        .performCreate [{ value := app.secret, password := app.passphrase }]
          (configFor app.backup_type))
  | .LabelChanged l => some ({ app with label := l }, .none)
  | .BackupTypeChanged t => some ({ app with backup_type := t }, .none)
  | .BackupCompleted r =>
      some ({ app with generated_backup := r, page := .BackupResults }, .none)
  | .SaveBackup n =>
      if env.fileChosen then
        match app.generated_backup with
        | Option.none => Option.none
        | some backup =>
          match backup.find? (fun sh => sh.number == n) with
          | Option.none => Option.none
          | some _ => if env.pdfOk then some (app, .none) else Option.none
      else some (app, .none)
  | .End => some ({ app with should_exit := true }, .none)

/-- The four concrete screens `view` can render (gui.rs lines 184-200). -/
inductive RenderedPage
  | welcome
  | createBackup
  | generating
  | results
  deriving DecidableEq

/-- gui.rs lines 185-191: page dispatch of `view`; the wildcard arm sends every remaining
page (i.e. `RestoreBackup`) to the welcome screen. -/
def viewPage {F : Type} (app : HyperbackedApp F) : RenderedPage :=
  match app.page with
  | .Welcome => .welcome
  | .CreateBackup => .createBackup
  | .BackupGenerating => .generating
  | .BackupResults => .results
  | _ => .welcome

/-- gui.rs lines 352-356: the action of the welcome page's create button. -/
def welcomeCreateAction {F : Type} : Message F := .SwitchPage .CreateBackup

/-- gui.rs lines 358-361: the action of the welcome page's restore button. -/
def welcomeRestoreAction {F : Type} : Message F := .SwitchPage .RestoreBackup

/-- Model of Rust's `str::trim`: leading and trailing whitespace removed, computed on the
string's character list. -/
def strTrim (s : String) : String :=
  ⟨((s.data.dropWhile Char.isWhitespace).reverse.dropWhile Char.isWhitespace).reverse⟩

/-- gui.rs lines 265-269: the Create button's action: present exactly when neither the
trimmed passphrase nor the trimmed secret is empty. -/
def createButtonAction {F : Type} (app : HyperbackedApp F) : Option (Message F) :=
  if !(strTrim app.passphrase).isEmpty && !(strTrim app.secret).isEmpty then
    some .CreateBackup
  else Option.none

/-- The content of the results page (gui.rs lines 215-237). -/
inductive ResultsView
  | shareList (numbers : List Nat)
  | failureText
  deriving DecidableEq

/-- gui.rs lines 216-237: the results page lists one row (with a `SaveBackup` button) per
share when a non-empty backup exists, and the failure message otherwise. -/
def resultsView {F : Type} (app : HyperbackedApp F) : ResultsView :=
  match app.generated_backup with
  | some shares =>
      if shares.length > 0 then .shareList (shares.map (fun sh => sh.number))
      else .failureText
  | Option.none => .failureText

/-- Iterated `update`: processing a list of messages (each with the environment its step
observed) in order; a panic anywhere aborts the run. -/
def run {F : Type} : HyperbackedApp F → List (Message F × UpdateEnv) →
    Option (HyperbackedApp F)
  | app, [] => some app
  | app, (m, e) :: rest =>
    match update app m e with
    | some (app', _) => run app' rest
    | Option.none => Option.none

section PolyLemmas

open Polynomial

variable {F : Type} [Field F]

/-- The polynomial with coefficient list `l`, constant term first. -/
noncomputable def listToPoly : List F → Polynomial F
  | [] => 0
  | a :: t => Polynomial.C a + Polynomial.X * listToPoly t

theorem hornerEval_cons (a : F) (t : List F) (x : F) :
    hornerEval (a :: t) x = a + x * hornerEval t x := rfl

theorem eval_listToPoly (l : List F) (x : F) :
    (listToPoly l).eval x = hornerEval l x := by
  induction l with
  | nil => simp [listToPoly, hornerEval]
  | cons a t ih => simp [listToPoly, hornerEval_cons, ih]

theorem eval0_listToPoly (l : List F) : (listToPoly l).eval 0 = l.headD 0 := by
  cases l with
  | nil => simp [listToPoly]
  | cons a t => simp [listToPoly]

theorem degree_listToPoly_lt (l : List F) :
    (listToPoly l).degree < (l.length : WithBot ℕ) := by
  induction l with
  | nil =>
    simp only [listToPoly, Polynomial.degree_zero, List.length_nil, Nat.cast_zero]
    exact_mod_cast WithBot.bot_lt_coe 0
  | cons a t ih =>
    rw [List.length_cons]
    have h1 : (Polynomial.C a).degree < ((t.length + 1 : ℕ) : WithBot ℕ) :=
      lt_of_le_of_lt Polynomial.degree_C_le (by exact_mod_cast Nat.succ_pos t.length)
    have h2 : (Polynomial.X * listToPoly t).degree < ((t.length + 1 : ℕ) : WithBot ℕ) := by
      rw [Polynomial.degree_mul, Polynomial.degree_X]
      calc 1 + (listToPoly t).degree < 1 + (t.length : WithBot ℕ) :=
            WithBot.add_lt_add_left (by simp) ih
        _ = ((t.length + 1 : ℕ) : WithBot ℕ) := by push_cast; ring
    exact lt_of_le_of_lt (Polynomial.degree_add_le _ _) (max_lt h1 h2)

theorem coeff_listToPoly (l : List F) (n : ℕ) :
    (listToPoly l).coeff n = l.getD n 0 := by
  induction l generalizing n with
  | nil => simp [listToPoly]
  | cons a t ih =>
    cases n with
    | zero => simp [listToPoly, Polynomial.mul_coeff_zero]
    | succ m => simp [listToPoly, Polynomial.coeff_X_mul, ih, Polynomial.coeff_C]

theorem eval0_basisDivisor (a b : F) :
    (Lagrange.basisDivisor a b).eval 0 = b / (b - a) := by
  have h : (a - b)⁻¹ = -(b - a)⁻¹ := by rw [← inv_neg, neg_sub]
  simp only [Lagrange.basisDivisor, Polynomial.eval_mul, Polynomial.eval_C,
    Polynomial.eval_sub, Polynomial.eval_X, h]
  ring

theorem eval0_interpolate {ι : Type} [DecidableEq ι] (s : Finset ι) (v r : ι → F) :
    (Lagrange.interpolate s v r).eval 0 =
      ∑ i ∈ s, r i * ∏ j ∈ s.erase i, v j / (v j - v i) := by
  rw [Lagrange.interpolate_apply, Polynomial.eval_finset_sum]
  refine Finset.sum_congr rfl (fun i _ => ?_)
  rw [Polynomial.eval_mul, Polynomial.eval_C]
  unfold Lagrange.basis
  rw [Polynomial.eval_prod]
  refine congrArg (fun z => r i * z) (Finset.prod_congr rfl (fun j _ => ?_))
  exact eval0_basisDivisor (v i) (v j)

/-- Correctness of interpolation at 0: if the values are the Horner evaluations of a
coefficient list of length at most `k` at `k` distinct points, interpolation at 0
recovers the constant term. -/
theorem lagrange0_hornerEval {k : Nat} (v : Fin k → F) (hv : Function.Injective v)
    {l : List F} (hl : l.length ≤ k) :
    lagrange0 v (fun i => hornerEval l (v i)) = l.headD 0 := by
  have hs : Set.InjOn v (Finset.univ : Finset (Fin k)) := hv.injOn
  have hdeg : (listToPoly l).degree < ((Finset.univ : Finset (Fin k)).card : WithBot ℕ) := by
    refine lt_of_lt_of_le (degree_listToPoly_lt l) ?_
    rw [Finset.card_univ, Fintype.card_fin]
    exact_mod_cast hl
  have h0 := congrArg (Polynomial.eval 0) (Lagrange.eq_interpolate hs hdeg)
  rw [eval0_listToPoly, eval0_interpolate] at h0
  calc lagrange0 v (fun i => hornerEval l (v i))
      = ∑ i, (listToPoly l).eval (v i) * ∏ j ∈ Finset.univ.erase i, v j / (v j - v i) := by
        unfold lagrange0
        exact Finset.sum_congr rfl (fun i _ => by rw [eval_listToPoly])
    _ = l.headD 0 := h0.symm

theorem getD_ofFn {α : Type} {m : Nat} (f : Fin m → α) (j : Fin m) (d : α) :
    (List.ofFn f).getD j.1 d = f j := by
  rw [List.getD_eq_getElem?_getD]
  simp [List.getElem?_ofFn, j.isLt]

end PolyLemmas

section Secrecy

variable {F : Type} [Field F]

/-- Two coefficient tuples that give the same share values at `m` distinct non-zero
points, for the same payload byte `b`, are equal: the two split polynomials also agree
at 0 (their constant term is `b`), hence at `m + 1` distinct points, while both have
degree at most `m`. -/
theorem horner_coeffs_injective {m : Nat} (b : F) (v : Fin m → F)
    (hv : Function.Injective v) (hnz : ∀ i, v i ≠ 0) {c c' : Fin m → F}
    (h : ∀ i, hornerEval (b :: List.ofFn c) (v i) =
      hornerEval (b :: List.ofFn c') (v i)) :
    c = c' := by
  have hw : Function.Injective (Fin.cons 0 v : Fin (m + 1) → F) := by
    rw [Fin.cons_injective_iff]
    constructor
    · rintro ⟨i, hi⟩
      exact hnz i hi
    · exact hv
  have hcard : ((Finset.univ : Finset (Fin (m + 1))).card : WithBot ℕ) =
      ((m + 1 : ℕ) : WithBot ℕ) := by
    rw [Finset.card_univ, Fintype.card_fin]
  have hdegp : (listToPoly (b :: List.ofFn c)).degree <
      ((Finset.univ : Finset (Fin (m + 1))).card : WithBot ℕ) := by
    rw [hcard]
    have h' := degree_listToPoly_lt (b :: List.ofFn c)
    simpa using h'
  have hdegq : (listToPoly (b :: List.ofFn c')).degree <
      ((Finset.univ : Finset (Fin (m + 1))).card : WithBot ℕ) := by
    rw [hcard]
    have h' := degree_listToPoly_lt (b :: List.ofFn c')
    simpa using h'
  have heval : ∀ i ∈ (Finset.univ : Finset (Fin (m + 1))),
      (listToPoly (b :: List.ofFn c)).eval ((Fin.cons 0 v : Fin (m + 1) → F) i) =
      (listToPoly (b :: List.ofFn c')).eval ((Fin.cons 0 v : Fin (m + 1) → F) i) := by
    intro i _
    refine Fin.cases ?_ ?_ i
    · rw [Fin.cons_zero, eval0_listToPoly, eval0_listToPoly]
      rfl
    · intro j
      rw [Fin.cons_succ, eval_listToPoly, eval_listToPoly]
      exact h j
  have hpq := Polynomial.eq_of_degrees_lt_of_eval_index_eq _ hw.injOn hdegp hdegq heval
  funext j
  have hc := congrArg (fun r => Polynomial.coeff r (j.1 + 1)) hpq
  simp only [coeff_listToPoly, List.getD_cons_succ] at hc
  rwa [getD_ofFn, getD_ofFn] at hc

/-- For a fixed payload, the observed view (all byte positions of all observed shares)
is injective in the random coefficients. -/
theorem shareView_injective {L m : Nat} (P : Fin L → F) (v : Fin m → F)
    (hv : Function.Injective v) (hnz : ∀ i, v i ≠ 0) :
    Function.Injective (fun c : Fin L → Fin m → F => fun i => shareView P c (v i)) := by
  intro c c' h
  funext p
  refine horner_coeffs_injective (P p) v hv hnz (fun i => ?_)
  have h' := congrFun (congrFun h i) p
  simpa [shareView] using h'

/-- Every observable view of `m` shares at distinct non-zero points arises from exactly
one choice of the random coefficients, whatever the payload. -/
theorem shareView_preimage_card {L m : Nat} [DecidableEq F] [Fintype F]
    (P : Fin L → F) (v : Fin m → F)
    (hv : Function.Injective v) (hnz : ∀ i, v i ≠ 0) (obs : Fin m → Fin L → F) :
    (Finset.univ.filter (fun c : Fin L → Fin m → F =>
      (fun i => shareView P c (v i)) = obs)).card = 1 := by
  have hbij : Function.Bijective
      (fun c : Fin L → Fin m → F => fun i => shareView P c (v i)) := by
    rw [Fintype.bijective_iff_injective_and_card]
    refine ⟨shareView_injective P v hv hnz, ?_⟩
    have hp : ∀ x : ℕ, (x ^ m) ^ L = (x ^ L) ^ m := fun x => by
      rw [← pow_mul, ← pow_mul, Nat.mul_comm]
    simp [Fintype.card_fun, Fintype.card_fin, hp]
  obtain ⟨c0, hc0⟩ := hbij.surjective obs
  rw [Finset.card_eq_one]
  refine ⟨c0, ?_⟩
  ext c
  simp only [Finset.mem_filter, Finset.mem_univ, true_and, Finset.mem_singleton]
  constructor
  · intro h
    exact hbij.injective (h.trans hc0.symm)
  · rintro rfl
    exact hc0

end Secrecy

section GuiLemmas

variable {F : Type}

/-- A successful `update` step either leaves `should_exit` unchanged or the message was
`Message::End`. -/
theorem update_should_exit_eq_or_end (app : HyperbackedApp F) (m : Message F)
    (env : UpdateEnv) (app' : HyperbackedApp F) (c : Cmd)
    (h : update app m env = some (app', c)) :
    app'.should_exit = app.should_exit ∨ m = Message.End := by
  cases m with
  | SaveBackup n =>
    left
    simp only [update] at h
    split at h
    · split at h
      · exact absurd h (by simp)
      · split at h
        · exact absurd h (by simp)
        · split at h
          · simp only [Option.some.injEq, Prod.mk.injEq] at h
            rw [← h.1]
          · exact absurd h (by simp)
    · simp only [Option.some.injEq, Prod.mk.injEq] at h
      rw [← h.1]
  | End => exact Or.inr rfl
  | SwitchPage p =>
    left
    simp only [update, Option.some.injEq, Prod.mk.injEq] at h
    rw [← h.1]
  | SecretChanged s =>
    left
    simp only [update, Option.some.injEq, Prod.mk.injEq] at h
    rw [← h.1]
  | PassphraseChanged p =>
    left
    simp only [update, Option.some.injEq, Prod.mk.injEq] at h
    rw [← h.1]
  | GenerateSecret =>
    left
    simp only [update, Option.some.injEq, Prod.mk.injEq] at h
    rw [← h.1]
  | CreateBackup =>
    left
    simp only [update, Option.some.injEq, Prod.mk.injEq] at h
    rw [← h.1]
  | LabelChanged l =>
    left
    simp only [update, Option.some.injEq, Prod.mk.injEq] at h
    rw [← h.1]
  | BackupTypeChanged t =>
    left
    simp only [update, Option.some.injEq, Prod.mk.injEq] at h
    rw [← h.1]
  | BackupCompleted r =>
    left
    simp only [update, Option.some.injEq, Prod.mk.injEq] at h
    rw [← h.1]

/-- A successful `update` step never resets `should_exit`. -/
theorem update_should_exit_mono (app : HyperbackedApp F) (m : Message F)
    (env : UpdateEnv) (app' : HyperbackedApp F) (c : Cmd)
    (h : update app m env = some (app', c)) (hex : app.should_exit = true) :
    app'.should_exit = true := by
  rcases update_should_exit_eq_or_end app m env app' c h with heq | hend
  · rw [heq, hex]
  · subst hend
    simp only [update, Option.some.injEq, Prod.mk.injEq] at h
    rw [← h.1]

/-- Once `should_exit` holds, it holds after processing any further message list. -/
theorem run_should_exit_mono (app : HyperbackedApp F)
    (ms : List (Message F × UpdateEnv)) (app' : HyperbackedApp F)
    (hex : app.should_exit = true) (h : run app ms = some app') :
    app'.should_exit = true := by
  induction ms generalizing app with
  | nil =>
    simp only [run, Option.some.injEq] at h
    rw [← h]
    exact hex
  | cons me rest ih =>
    obtain ⟨m, e⟩ := me
    simp only [run] at h
    split at h
    · rename_i a2 c2 hu
      exact ih a2 (update_should_exit_mono app m e a2 c2 hu hex) h
    · exact absurd h (by simp)

end GuiLemmas

/-- Claim C2 counterexample: the Standard backup mode is selectable, the config the UI
derives from it and passes to `create_backup` is `(required_shares, num_shares) = (1, 1)`,
and that config violates the claimed invariant `2 ≤ required_shares ≤ num_shares ≤ 255`. -/
theorem claim_C2_counterexample :
    BackupType.Standard ∈ BackupType.ALL ∧
    configFor BackupType.Standard = { required_shares := 1, num_shares := 1 } ∧
    ¬ specConfigInvariant (configFor BackupType.Standard) := by
  decide

/-- Claim C2 (amended): every config the UI passes to `create_backup` — the config derived
from any selectable backup mode — satisfies `1 ≤ required_shares ≤ num_shares ≤ 255`; the
spec's lower bound `2 ≤ required_shares` fails for the Standard mode, whose config is
`(1, 1)`. -/
theorem claim_C2 (t : BackupType) (h : t ∈ BackupType.ALL) :
    1 ≤ (configFor t).required_shares ∧
    (configFor t).required_shares ≤ (configFor t).num_shares ∧
    (configFor t).num_shares ≤ 255 := by
  fin_cases h <;> decide

/-- Witness for claim C2 at the Standard mode. -/
theorem claim_C2_witness :
    BackupType.Standard ∈ BackupType.ALL ∧
    (1 ≤ (configFor BackupType.Standard).required_shares ∧
      (configFor BackupType.Standard).required_shares ≤
        (configFor BackupType.Standard).num_shares ∧
      (configFor BackupType.Standard).num_shares ≤ 255) :=
  ⟨by decide, claim_C2 BackupType.Standard (by decide)⟩

/-- Claim C3: processing `Message::CreateBackup` spawns `create_backup` with exactly one
secret in the batch — the typed secret and passphrase — and with the config `(1, 1)` when
the selected mode is Standard and `(min, max)` when it is Distributed. -/
theorem claim_C3 {F : Type} (app : HyperbackedApp F) (env : UpdateEnv) :
    update app .CreateBackup env =
      some ({ app with page := .BackupGenerating },
        .performCreate [{ value := app.secret, password := app.passphrase }]
          (configFor app.backup_type)) ∧
    configFor .Standard = { required_shares := 1, num_shares := 1 } ∧
    (∀ mn mx : Nat, configFor (.Distributed mn mx) =
      { required_shares := mn, num_shares := mx }) :=
  ⟨rfl, rfl, fun _ _ => rfl⟩

/-- Claim C5: when the trimmed passphrase or the trimmed secret is empty, the Create
button carries no action, so backup creation cannot be triggered with empty input. -/
theorem claim_C5 {F : Type} (app : HyperbackedApp F)
    (h : (strTrim app.passphrase).isEmpty = true ∨ (strTrim app.secret).isEmpty = true) :
    createButtonAction app = Option.none := by
  unfold createButtonAction
  rcases h with h | h <;> simp [h]

/-- Witness for claim C5 at the initial state, whose secret and passphrase are empty. -/
theorem claim_C5_witness :
    (strTrim (HyperbackedApp.default (F := Unit)).passphrase).isEmpty = true ∧
    createButtonAction (HyperbackedApp.default (F := Unit)) = Option.none :=
  ⟨by decide, claim_C5 (HyperbackedApp.default (F := Unit)) (Or.inl (by decide))⟩

/-- An environment in which no save-file dialog succeeds (used for witnesses). -/
def envNoFile : UpdateEnv := { fileChosen := false, pdfOk := false, genPassphrase := "" }

/-- An environment in which the save-file dialog returns a file (used for witnesses). -/
def envFile : UpdateEnv := { fileChosen := true, pdfOk := true, genPassphrase := "" }

/-- The state after a failed creation completes (used for witnesses). -/
def appResultsNone : HyperbackedApp Unit :=
  { (HyperbackedApp.default : HyperbackedApp Unit) with
      generated_backup := Option.none, page := .BackupResults }

/-- A state whose page is `RestoreBackup` (used for witnesses). -/
def appRestorePage : HyperbackedApp Unit :=
  { (HyperbackedApp.default : HyperbackedApp Unit) with page := .RestoreBackup }

/-- A state whose exit flag is set (used for witnesses). -/
def appExitSet : HyperbackedApp Unit :=
  { (HyperbackedApp.default : HyperbackedApp Unit) with should_exit := true }

/-- Claim C6: completing a creation flow stores exactly the async result — the complete
share list on success, `none` on failure — and the results page shows the failure message
whenever the stored backup is `none` or empty, never a partial share list. -/
theorem claim_C6 {F : Type} (app : HyperbackedApp F) (r : Option (List (BackupShare F)))
    (env : UpdateEnv) :
    update app (.BackupCompleted r) env =
      some ({ app with generated_backup := r, page := .BackupResults }, .none) ∧
    ((r = Option.none ∨ r = some []) →
      resultsView { app with generated_backup := r, page := .BackupResults } =
        .failureText) := by
  refine ⟨rfl, ?_⟩
  rintro (rfl | rfl) <;> rfl

/-- Witness for claim C6 at a failed creation (`r = none`). -/
theorem claim_C6_witness :
    update (HyperbackedApp.default (F := Unit)) (.BackupCompleted Option.none) envNoFile =
      some (appResultsNone, .none) ∧
    resultsView appResultsNone = .failureText :=
  ⟨(claim_C6 (HyperbackedApp.default (F := Unit)) Option.none envNoFile).1,
    (claim_C6 (HyperbackedApp.default (F := Unit)) Option.none envNoFile).2 (Or.inl rfl)⟩

/-- Claim C7: the UI follows welcome → create → generating → results: the initial page is
the welcome page, `SwitchPage p` always sets the page to `p` (in particular to
`CreateBackup`), `CreateBackup` always sets it to `BackupGenerating`, and
`BackupCompleted` always sets it to `BackupResults`. -/
theorem claim_C7 {F : Type} (app : HyperbackedApp F) (env : UpdateEnv) (p : AppPage)
    (r : Option (List (BackupShare F))) :
    (HyperbackedApp.default (F := F)).page = .Welcome ∧
    (update app (.SwitchPage p) env).map (fun x => x.1.page) = some p ∧
    (update app .CreateBackup env).map (fun x => x.1.page) = some .BackupGenerating ∧
    (update app (.BackupCompleted r) env).map (fun x => x.1.page) =
      some .BackupResults :=
  ⟨rfl, rfl, rfl, rfl⟩

/-- Claim C8: the welcome page's restore button sends `SwitchPage RestoreBackup`;
processing it sets the page to `RestoreBackup`; yet `view` renders the welcome screen
whenever the page is `RestoreBackup` — the restoration flow is a reachable state not
wired to a concrete screen. -/
theorem claim_C8 {F : Type} (app : HyperbackedApp F) (env : UpdateEnv)
    (h : app.page = .RestoreBackup) :
    welcomeRestoreAction (F := F) = .SwitchPage .RestoreBackup ∧
    update app welcomeRestoreAction env =
      some ({ app with page := .RestoreBackup }, .none) ∧
    viewPage app = .welcome := by
  refine ⟨rfl, rfl, ?_⟩
  unfold viewPage
  rw [h]

/-- Witness for claim C8 at a state whose page is `RestoreBackup`. -/
theorem claim_C8_witness :
    appRestorePage.page = .RestoreBackup ∧ viewPage appRestorePage = .welcome :=
  ⟨rfl, (claim_C8 appRestorePage envNoFile rfl).2.2⟩

/-- Claim C9: `should_exit` is false in the initial state, `Message::End` sets it to
true, a successful step changes it only when the message is `End`, and once true it
stays true after processing any further message list. -/
theorem claim_C9 {F : Type} :
    (HyperbackedApp.default (F := F)).should_exit = false ∧
    (∀ (app : HyperbackedApp F) (env : UpdateEnv),
      update app .End env = some ({ app with should_exit := true }, .none)) ∧
    (∀ (app : HyperbackedApp F) (m : Message F) (env : UpdateEnv)
        (app' : HyperbackedApp F) (c : Cmd),
      update app m env = some (app', c) → app'.should_exit = true →
        app.should_exit = true ∨ m = .End) ∧
    (∀ (app : HyperbackedApp F) (ms : List (Message F × UpdateEnv))
        (app' : HyperbackedApp F),
      app.should_exit = true → run app ms = some app' → app'.should_exit = true) := by
  refine ⟨rfl, fun _ _ => rfl, ?_, ?_⟩
  · intro app m env app' c h hex
    rcases update_should_exit_eq_or_end app m env app' c h with heq | hend
    · left
      rw [← heq, hex]
    · exact Or.inr hend
  · intro app ms app' hex h
    exact run_should_exit_mono app ms app' hex h

/-- Witness for claim C9: a state with the exit flag set keeps it set across a run. -/
theorem claim_C9_witness :
    appExitSet.should_exit = true ∧
    run appExitSet [] = some appExitSet ∧
    appExitSet.should_exit = true :=
  ⟨rfl, rfl, (claim_C9 (F := Unit)).2.2.2 appExitSet [] appExitSet rfl rfl⟩

/-- Claim C10: the `SaveBackup` branch is not total: when the save dialog returns a file
and the stored backup is missing, or no stored share has the requested number, or PDF
generation/rendering fails, `update` panics (modelled as `Option.none`) instead of
returning an error. -/
theorem claim_C10 {F : Type} (app : HyperbackedApp F) (n : Nat) (env : UpdateEnv)
    (hfile : env.fileChosen = true)
    (h : app.generated_backup = Option.none ∨
      (∃ b, app.generated_backup = some b ∧
        b.find? (fun sh => sh.number == n) = Option.none) ∨
      env.pdfOk = false) :
    update app (.SaveBackup n) env = Option.none := by
  simp only [update, hfile, if_true]
  rcases h with h | ⟨b, hb, hf⟩ | h
  · rw [h]
  · rw [hb]
    simp only [hf]
  · cases hgb : app.generated_backup with
    | none => rfl
    | some b =>
      cases hf : b.find? (fun sh => sh.number == n) with
      | none => simp [hf]
      | some sh => simp [hf, h]

/-- Witness for claim C10: saving from the initial state (no generated backup) with a
chosen file panics. -/
theorem claim_C10_witness :
    update (HyperbackedApp.default (F := Unit)) (.SaveBackup 1) envFile = Option.none :=
  claim_C10 (HyperbackedApp.default (F := Unit)) 1 envFile rfl (Or.inl rfl)

/-- Claim C4: threshold secrecy. For `required ≥ 2`, any subset of `required - 1` of the
produced shares — observed as the split polynomial values at `required - 1` distinct
non-zero field points — is information-theoretically independent of the original secret
bytes: for every payload, every observable view arises from exactly one choice of the
uniformly random coefficients, so the distribution of the view is the same for all
payloads and reveals nothing about the encrypted secret. -/
theorem claim_C4 {F : Type} [Field F] [DecidableEq F] [Fintype F] {L m : Nat}
    (required : Nat) (hreq : 2 ≤ required) (hm : m + 1 = required)
    (xs : Fin m → F) (hinj : Function.Injective xs) (hnz : ∀ i, xs i ≠ 0) :
    (∀ (P : Fin L → F) (obs : Fin m → Fin L → F),
      (Finset.univ.filter (fun c : Fin L → Fin m → F =>
        (fun i => shareView P c (xs i)) = obs)).card = 1) ∧
    (∀ (P Q : Fin L → F) (obs : Fin m → Fin L → F),
      (Finset.univ.filter (fun c : Fin L → Fin m → F =>
        (fun i => shareView P c (xs i)) = obs)).card =
      (Finset.univ.filter (fun c : Fin L → Fin m → F =>
        (fun i => shareView Q c (xs i)) = obs)).card) := by
  have _husage : 1 ≤ m := by omega
  refine ⟨fun P obs => shareView_preimage_card P xs hinj hnz obs, fun P Q obs => ?_⟩
  rw [shareView_preimage_card P xs hinj hnz obs,
    shareView_preimage_card Q xs hinj hnz obs]

/-- Witness for claim C4 over the field with three elements, one observed share and a
one-byte payload. -/
theorem claim_C4_witness :
    (Finset.univ.filter (fun c : Fin 1 → Fin 1 → ZMod 3 =>
      (fun _i : Fin 1 => shareView (fun _ : Fin 1 => (0 : ZMod 3)) c (1 : ZMod 3)) =
        (fun _ _ : Fin 1 => (0 : ZMod 3)))).card = 1 :=
  (claim_C4 2 (by decide) rfl (fun _ => (1 : ZMod 3))
    (fun a b _ => Subsingleton.elim a b) (by decide)).1 (fun _ => 0) (fun _ _ => 0)

section RoundTrip

variable {F : Type} [Field F]

/-- The share fragment of a single secret at field point `x`: the byte-wise polynomial
share of its encrypted payload (the head entry of `shareData` for a singleton batch). -/
def secretFragment (env : CryptoEnv F) (sec : Secret F) (cfg : BackupConfig) (x : F) :
    List F :=
  List.ofFn (shareView
    (fun p : Fin (encryptPayload env 0 sec).length => (encryptPayload env 0 sec).get p)
    (fun (p : Fin (encryptPayload env 0 sec).length)
        (j : Fin (cfg.required_shares - 1)) => env.coeff 0 p.1 j.1) x)

theorem shareData_singleton (env : CryptoEnv F) (sec : Secret F) (cfg : BackupConfig)
    (x : F) : shareData env [sec] cfg x = [secretFragment env sec cfg x] := by
  simp [shareData, secretFragment, List.ofFn_succ, List.ofFn_zero]

theorem length_secretFragment (env : CryptoEnv F) (sec : Secret F) (cfg : BackupConfig)
    (x : F) :
    (secretFragment env sec cfg x).length = (encryptPayload env 0 sec).length :=
  List.length_ofFn _

/-- Unpacking a well-formed packed payload and decrypting it with the matching tag. -/
theorem decrypt_pack [DecidableEq F] (env : CryptoEnv F) (pass : String)
    (salt nn ct tg : List F)
    (hs : salt.length = saltLen) (hn : nn.length = nonceLen) (ht : tg.length = tagLen)
    (hmacv : env.mac (env.kdf pass salt) nn ct = tg) :
    decryptSecret env pass (salt ++ nn ++ ct ++ tg) =
      some (List.ofFn (fun j : Fin ct.length =>
        ct.get j - env.ks (env.kdf pass salt) nn j.1)) := by
  rw [List.append_assoc, List.append_assoc]
  simp only [decryptSecret]
  rw [List.take_left' hs, List.drop_left' hs, List.take_left' hn, List.drop_left' hn]
  have hlen2 : (ct ++ tg).length - tagLen = ct.length := by
    rw [List.length_append, ht]
    omega
  rw [hlen2, List.take_left, List.drop_left, if_pos hmacv]

/-- The cipher round trip: decrypting the packed encryption of a secret with the same
passphrase recovers the value. -/
theorem decrypt_encrypt [DecidableEq F] (env : CryptoEnv F) (sec : Secret F)
    (hsalt : (env.salt 0).length = saltLen)
    (hnonce : (env.nonce 0).length = nonceLen)
    (hmac : ∀ k nn c, (env.mac k nn c).length = tagLen) :
    decryptSecret env sec.password (encryptPayload env 0 sec) = some sec.value := by
  have h := decrypt_pack env sec.password (env.salt 0) (env.nonce 0)
    (List.ofFn (fun j : Fin sec.value.length =>
      sec.value.get j + env.ks (env.kdf sec.password (env.salt 0)) (env.nonce 0) j.1))
    (env.mac (env.kdf sec.password (env.salt 0)) (env.nonce 0)
      (List.ofFn (fun j : Fin sec.value.length =>
        sec.value.get j + env.ks (env.kdf sec.password (env.salt 0)) (env.nonce 0) j.1)))
    hsalt hnonce (hmac _ _ _) rfl
  refine Eq.trans h (congrArg some ?_)
  refine List.ext_get (by simp) ?_
  intro n h1 h2
  simp only [List.get_ofFn, Fin.coe_cast, Fin.cast_mk]
  exact add_sub_cancel_right _ _

/-- Recombining a set of `required_shares` fragments of the same secret, taken at
injectively embedded share numbers, recovers the encrypted payload. -/
theorem combine_sub (env : CryptoEnv F) (sec : Secret F) (cfg : BackupConfig)
    (h1 : 1 ≤ cfg.required_shares)
    (sub : List (BackupShare F))
    (hlen : sub.length = cfg.required_shares)
    (hfrag : ∀ i : Fin sub.length, (sub.get i).data.getD 0 [] =
      secretFragment env sec cfg (env.xcoord ((sub.get i).number)))
    (hinj : Function.Injective
      (fun i : Fin sub.length => env.xcoord ((sub.get i).number))) :
    combineSecret env sub 0 (encryptPayload env 0 sec).length =
      encryptPayload env 0 sec := by
  unfold combineSecret
  have key : ∀ p : Fin (encryptPayload env 0 sec).length,
      lagrange0 (fun i : Fin sub.length => env.xcoord ((sub.get i).number))
        (fun i : Fin sub.length => ((sub.get i).data.getD 0 []).getD p.1 0) =
      (encryptPayload env 0 sec).get p := by
    intro p
    have hy : (fun i : Fin sub.length => ((sub.get i).data.getD 0 []).getD p.1 0) =
        (fun i : Fin sub.length =>
          hornerEval ((encryptPayload env 0 sec).get p ::
            List.ofFn (fun j : Fin (cfg.required_shares - 1) => env.coeff 0 p.1 j.1))
            (env.xcoord ((sub.get i).number))) := by
      funext i
      rw [hfrag i]
      unfold secretFragment
      rw [getD_ofFn]
      rfl
    rw [hy]
    have hl : ((encryptPayload env 0 sec).get p ::
        List.ofFn (fun j : Fin (cfg.required_shares - 1) => env.coeff 0 p.1 j.1)).length ≤
        sub.length := by
      rw [List.length_cons, List.length_ofFn, hlen]
      omega
    exact lagrange0_hornerEval _ hinj hl
  exact Eq.trans (congrArg List.ofFn (funext key)) (List.ofFn_get _)

/-- Shares that all carry the scheme parameters of `cfg`, singleton fragment data, and
in-range numbers embedded injectively into the field pass the consistency validation. -/
theorem consistent_sub [DecidableEq F] (env : CryptoEnv F) (sec : Secret F)
    (cfg : BackupConfig) (s0 : BackupShare F) (rest : List (BackupShare F))
    (hfields : ∀ sh ∈ s0 :: rest,
      sh.required_shares = cfg.required_shares ∧
      sh.num_shares = cfg.num_shares ∧
      sh.data = [secretFragment env sec cfg (env.xcoord sh.number)] ∧
      1 ≤ sh.number ∧ sh.number ≤ cfg.num_shares)
    (hinj : Function.Injective
      (fun i : Fin (s0 :: rest).length => env.xcoord (((s0 :: rest).get i).number))) :
    sharesConsistent (s0 :: rest) = true := by
  obtain ⟨hr0, hn0, hd0, hlo0, hhi0⟩ := hfields s0 (List.mem_cons_self s0 rest)
  unfold sharesConsistent
  simp only [Bool.and_eq_true, List.all_eq_true, beq_iff_eq, decide_eq_true_eq]
  refine ⟨⟨?_, ?_⟩, ?_⟩
  · intro sh hsh
    obtain ⟨hr, hn, hd, hlo, hhi⟩ := hfields sh hsh
    refine ⟨⟨⟨hr.trans hr0.symm, hn.trans hn0.symm⟩, ?_⟩, ?_⟩
    · rw [hd, hd0]
      rfl
    · intro s hs
      rw [hd0] at hs
      simp only [List.length_singleton, List.range_succ, List.range_zero,
        List.nil_append, List.mem_singleton] at hs
      subst hs
      rw [hd, hd0]
      simp only [List.getD_cons_zero, length_secretFragment]
  · intro sh hsh
    obtain ⟨hr, hn, hd, hlo, hhi⟩ := hfields sh hsh
    exact ⟨hlo, hhi.trans (le_of_eq hn0.symm)⟩
  · rw [← List.ofFn_getElem_eq_map]
    rw [List.nodup_ofFn]
    intro i j hij
    exact hinj (congrArg env.xcoord hij)

/-- A valid, non-empty creation request succeeds and produces the `num_shares` numbered
shares. -/
theorem create_backup_ok (env : CryptoEnv F) (secrets : List (Secret F))
    (cfg : BackupConfig) (h1 : 1 ≤ cfg.required_shares)
    (h2 : cfg.required_shares ≤ cfg.num_shares) (h3 : cfg.num_shares ≤ 255)
    (hne : secrets.any (fun s => s.value.isEmpty || s.password.isEmpty) = false) :
    create_backup env secrets cfg =
      .ok (List.ofFn (fun k : Fin cfg.num_shares => createdShare env secrets cfg k.1)) := by
  unfold create_backup
  rw [if_pos ⟨h1, h2, h3⟩, hne]
  rfl

/-- Claim C1: round trip. For every secret value and passphrase, every valid
`(required, total)` configuration, and every cryptographic environment whose salt, nonce
and tag lengths are well formed and whose share numbers embed injectively into the field,
restoring any `required`-sized subset of the shares produced by `create_backup` with the
original passphrase returns exactly the original secret value. -/
theorem claim_C1 {F : Type} [Field F] [DecidableEq F] (env : CryptoEnv F) (sec : Secret F)
    (cfg : BackupConfig)
    (h1 : 1 ≤ cfg.required_shares) (h2 : cfg.required_shares ≤ cfg.num_shares)
    (h3 : cfg.num_shares ≤ 255)
    (hv : sec.value.isEmpty = false) (hp : sec.password.isEmpty = false)
    (hsalt : (env.salt 0).length = saltLen) (hnonce : (env.nonce 0).length = nonceLen)
    (hmac : ∀ k nn c, (env.mac k nn c).length = tagLen)
    (shares : List (BackupShare F))
    (hcr : create_backup env [sec] cfg = .ok shares)
    (sub : List (BackupShare F))
    (hlen : sub.length = cfg.required_shares)
    (hmem : ∀ sh ∈ sub, sh ∈ shares)
    (hinj : Function.Injective
      (fun i : Fin sub.length => env.xcoord ((sub.get i).number))) :
    restore_backup env sub sec.password = .ok [sec.value] := by
  have hsh : shares =
      List.ofFn (fun k : Fin cfg.num_shares => createdShare env [sec] cfg k.1) := by
    have hok := create_backup_ok env [sec] cfg h1 h2 h3 (by simp [hv, hp])
    rw [hok] at hcr
    exact (Except.ok.inj hcr).symm
  have hfields : ∀ sh ∈ sub,
      sh.required_shares = cfg.required_shares ∧
      sh.num_shares = cfg.num_shares ∧
      sh.data = [secretFragment env sec cfg (env.xcoord sh.number)] ∧
      1 ≤ sh.number ∧ sh.number ≤ cfg.num_shares := by
    intro sh hshm
    have hmem2 := hmem sh hshm
    rw [hsh, List.mem_ofFn] at hmem2
    obtain ⟨k, hk⟩ := hmem2
    subst hk
    refine ⟨rfl, rfl, shareData_singleton env sec cfg _, ?_, ?_⟩
    · show 1 ≤ k.1 + 1
      omega
    · show k.1 + 1 ≤ cfg.num_shares
      have hk2 := k.2
      omega
  obtain - | ⟨s0, rest⟩ := sub
  · simp only [List.length_nil] at hlen
    omega
  obtain ⟨hr0, hn0, hd0, hlo0, hhi0⟩ := hfields s0 (List.mem_cons_self s0 rest)
  have hfrag : ∀ i : Fin (s0 :: rest).length, ((s0 :: rest).get i).data.getD 0 [] =
      secretFragment env sec cfg (env.xcoord (((s0 :: rest).get i).number)) := by
    intro i
    obtain ⟨-, -, hd, -, -⟩ := hfields ((s0 :: rest).get i) (List.get_mem _ _ _)
    rw [hd, List.getD_cons_zero]
  have hcons := consistent_sub env sec cfg s0 rest hfields hinj
  have hrec : (List.range s0.data.length).map (fun s =>
      decryptSecret env sec.password
        (combineSecret env (s0 :: rest) s ((s0.data.getD s []).length))) =
      [some sec.value] := by
    rw [hd0]
    rw [show List.range ([secretFragment env sec cfg (env.xcoord s0.number)].length) =
      [0] from rfl]
    simp only [List.map_cons, List.map_nil, List.getD_cons_zero]
    rw [length_secretFragment, combine_sub env sec cfg h1 _ hlen hfrag hinj,
      decrypt_encrypt env sec hsalt hnonce hmac]
  simp only [restore_backup]
  rw [hcons]
  rw [if_pos rfl]
  rw [if_pos (show s0.required_shares ≤ (s0 :: rest).length from by rw [hr0, hlen])]
  rw [hrec]
  rfl

/-- A concrete cryptographic environment over the field with three elements (used for
the round-trip witness). -/
def envW : CryptoEnv (ZMod 3) where
  kdf := fun _ _ => []
  ks := fun _ _ _ => 0
  mac := fun _ _ _ => List.replicate tagLen 0
  salt := fun _ => List.replicate saltLen 0
  nonce := fun _ => List.replicate nonceLen 0
  coeff := fun _ _ _ => 1
  xcoord := fun k => (k : ZMod 3)

/-- A concrete one-byte secret (used for the round-trip witness). -/
def secW : Secret (ZMod 3) := { value := [1], password := "p" }

/-- The 2-of-2 configuration (used for the round-trip witness). -/
def cfgW : BackupConfig := { required_shares := 2, num_shares := 2 }

/-- The shares the round-trip witness creates and restores from. -/
def sharesW : List (BackupShare (ZMod 3)) :=
  List.ofFn (fun k : Fin cfgW.num_shares => createdShare envW [secW] cfgW k.1)

/-- Witness for claim C1: restoring both shares of a concrete 2-of-2 backup over
`ZMod 3` returns the original secret value. -/
theorem claim_C1_witness :
    restore_backup envW sharesW secW.password = .ok [secW.value] :=
  claim_C1 envW secW cfgW (by decide) (by decide) (by decide) (by decide) (by decide)
    rfl rfl (fun _ _ _ => rfl) sharesW rfl sharesW rfl (fun _ h => h) (by decide)

end RoundTrip
